import Mathlib

/-!
Verification development for the attestation batching/slicing/commitment core
(`src/utils/attestations.ts`): `pack`, `slice`, `hash`, `verify`, `rehash`.

Modelling conventions:
* Schemas, addresses, hex payloads and error messages are `String`s, as in the
  source (JS `===` on strings is `String` equality).
* An `AttestationRequestData` mirrors the entry object built by `pack`
  (recipient / expirationTime / revocable / refUID / data / value).
* The chained commitment `keccak256(abiEncode(prev, schema, entry))` is
  modelled as a free constructor `Commitment.step prev schema entry`: distinct
  encoder inputs are assumed to give distinct digests (collision-freeness),
  and `ethers.constants.HashZero` is the `Commitment.zero` genesis value.
* The asynchronous gas estimator handed to `slice` is a total function
  `Est` returning either an estimate (`.ok cost`) or a failure message
  (`.error msg`), matching `estimateGas.attest` resolving or throwing.
* BigNumber arithmetic `estimate.gt(block.gasLimit.sub(100000))` is carried
  out in `Int` (BigNumber subtraction may go negative; it does not clamp).
* The JS `while` loops of `slice` are embedded as: a well-founded recursion
  for the inner binary search (its measure `hi - lo` really decreases), and a
  fuel-indexed recursion for the outer slicing loop, whose termination is a
  *claim* to be settled, not an assumption: `none` means fuel ran out.
-/

namespace Atstdd

/-- `ethers.constants.AddressZero`. -/
def AddressZero : String := "0x0000000000000000000000000000000000000000"

/-- `ethers.constants.HashZero` (as the `refUID` field value). -/
def HashZero : String := "0x0000000000000000000000000000000000000000000000000000000000000000"

/-- The entry object `pack` pushes into a request's `data` array
(`AttestationRequestData` of the EAS SDK). -/
structure AttestationRequestData where
  recipient : String
  expirationTime : Nat
  revocable : Bool
  refUID : String
  data : String
  value : Nat
deriving DecidableEq, Repr

/-- An input record of `pack`: schema id, optional recipient (JS `undefined`
is `none`; the empty string is the falsy string), opaque payload. -/
structure EncodedAttestation where
  schema : String
  recipient : Option String
  data : String
deriving DecidableEq, Repr

/-- `MultiAttestationRequest`: a schema id plus its ordered entries. -/
structure MultiAttestationRequest where
  schema : String
  data : List AttestationRequestData
deriving DecidableEq, Repr

/-- The entry built at lines 29-36 of the source:
`recipient || AddressZero`, fixed `expirationTime = 0`, `revocable = false`,
`refUID = HashZero`, `value = 0`. -/
def toEntry (a : EncodedAttestation) : AttestationRequestData :=
  { recipient :=
      match a.recipient with
      | none => AddressZero
      | some s => if s = "" then AddressZero else s
    expirationTime := 0
    revocable := false
    refUID := HashZero
    data := a.data
    value := 0 }

/-- One `reduce` step of `pack`: `acc.find(entry => entry.schema === a.schema)`
appends to the first request with a matching schema, otherwise a fresh request
is pushed at the end. -/
def packStep : List MultiAttestationRequest → EncodedAttestation → List MultiAttestationRequest
  | [], a => [⟨a.schema, [toEntry a]⟩]
  | b :: rest, a =>
      if b.schema = a.schema then ⟨b.schema, b.data ++ [toEntry a]⟩ :: rest
      else b :: packStep rest a

/-- `pack` (lines 12-40): group the attestations by schema via a left fold. -/
def pack (attestations : List EncodedAttestation) : List MultiAttestationRequest :=
  attestations.foldl packStep []

/-- Chained commitments, with `keccak256 ∘ abi.encode` modelled as a free
constructor (collision-free) and `HashZero` as `zero`. -/
inductive Commitment where
  | zero : Commitment
  | step : Commitment → String → AttestationRequestData → Commitment
deriving DecidableEq, Repr

/-- `hash` (lines 135-154): one update of the verification hash. -/
def hash (vhash : Commitment) (schema : String) (attestation : AttestationRequestData) :
    Commitment :=
  .step vhash schema attestation

/-- Number of `hash` applications under a commitment. -/
def Commitment.len : Commitment → Nat
  | .zero => 0
  | .step c _ _ => c.len + 1

/-- Fold `hash` over schema-tagged entries starting from genesis. -/
def chainOf (l : List (String × AttestationRequestData)) : Commitment :=
  l.foldl (fun c p => hash c p.1 p.2) .zero

/-- The flattened entry sequence of a request collection, each entry tagged
with the schema of the request it sits in. -/
def flattenColl : List MultiAttestationRequest → List (String × AttestationRequestData)
  | [] => []
  | b :: rest => b.data.map (fun e => (b.schema, e)) ++ flattenColl rest

/-- All entries of a request collection in order (no schema tags). -/
def entriesOf : List MultiAttestationRequest → List AttestationRequestData
  | [] => []
  | b :: rest => b.data ++ entriesOf rest

/-- `verify` (lines 164-177): fold `hash` over every entry of every request and
compare with the given hash. -/
def verify (vhash : Commitment) (requests : List MultiAttestationRequest) : Bool :=
  decide
    ((requests.foldl (fun c b => b.data.foldl (fun c e => hash c b.schema e) c) Commitment.zero)
      = vhash)

/-- Inner loop of `rehash` over one request's entries (lines 201-214): update
`computed`, set `found` and skip the matching entry, retain entries seen while
`found` holds. Returns (computed, found, retained entries). -/
def goBatch (vhash : Commitment) (schema : String) :
    Commitment → Bool → List AttestationRequestData →
      Commitment × Bool × List AttestationRequestData
  | c, found, [] => (c, found, [])
  | c, found, e :: rest =>
      let c' := hash c schema e
      if c' = vhash then goBatch vhash schema c' true rest
      else if found then
        let r := goBatch vhash schema c' found rest
        (r.1, r.2.1, e :: r.2.2)
      else goBatch vhash schema c' found rest

/-- Outer loop of `rehash` (lines 197-220): process each request, pushing the
rebuilt request only if `found` holds and it is non-empty afterwards. -/
def rehashGo (vhash : Commitment) :
    List MultiAttestationRequest → Commitment → Bool →
      Commitment × Bool × List MultiAttestationRequest
  | [], c, found => (c, found, [])
  | b :: rest, c, found =>
      let r := goBatch vhash b.schema c found b.data
      let out := rehashGo vhash rest r.1 r.2.1
      (out.1, out.2.1,
        (if r.2.1 && !r.2.2.isEmpty then [⟨b.schema, r.2.2⟩] else []) ++ out.2.2)

/-- `rehash` (lines 188-232): drop the prefix reflected in `vhash`; if no
prefix matched, return the input when `vhash` is genesis and fail otherwise. -/
def rehash (vhash : Commitment) (requests : List MultiAttestationRequest) :
    Except String (List MultiAttestationRequest) :=
  let r := rehashGo vhash requests .zero false
  if r.2.1 then .ok r.2.2
  else if vhash = .zero then .ok requests
  else .error "verification hash mismatch"

/-- The gas estimator handed to `slice`: schema and entry sub-range in, either
an estimate or a thrown error message out. -/
abbrev Est := String → List AttestationRequestData → Except String Nat

/-- `a` is a prefix of `b` (over character lists). -/
def isPre : List Char → List Char → Bool
  | [], _ => true
  | _ :: _, [] => false
  | a :: as, b :: bs => a == b && isPre as bs

/-- `pat` occurs as a contiguous substring of `l`. -/
def hasSub (pat : List Char) : List Char → Bool
  | [] => isPre pat []
  | c :: rest => isPre pat (c :: rest) || hasSub pat rest

/-- JS `msg.includes(pat)`. -/
def strIncludes (msg pat : String) : Bool := hasSub pat.toList msg.toList

/-- The error classification at lines 101-104: messages mentioning
`exceeds gas limit` or `cannot estimate gas`. -/
def classify (msg : String) : Bool :=
  strIncludes msg "exceeds gas limit" || strIncludes msg "cannot estimate gas"

/-- JS `arr.slice(start, end)` for the index shapes reachable in `slice`
(`0 ≤ start`, `end` clamped below at 0 and above at the length). -/
def jsSlice (l : List AttestationRequestData) (a : Nat) (b : Int) :
    List AttestationRequestData :=
  (l.take b.toNat).drop a

/-- The inner binary-search `while (lo <= hi)` loop of `slice` (lines 79-110),
returning the final `lo` (or the propagated estimator error). `lo`, `hi` are
`Int` because `hi` becomes `mid - 1` and may reach `-1`. -/
def searchGo (est : Est) (schema : String) (d : List AttestationRequestData)
    (gasLimit : Nat) (start : Nat) (lo hi : Int) : Except String Int :=
  if _h : lo ≤ hi then
    let mid := (lo + hi) / 2
    match est schema (jsSlice d start mid) with
    | .ok c =>
        if (c : Int) > (gasLimit : Int) - 100000 then
          searchGo est schema d gasLimit start lo (mid - 1)
        else
          searchGo est schema d gasLimit start (mid + 1) hi
    | .error msg =>
        if classify msg then searchGo est schema d gasLimit start lo (mid - 1)
        else .error msg
  else .ok lo
termination_by (hi + 1 - lo).toNat
decreasing_by all_goals omega

/-- After one round of the outer loop found `lo`, push the sub-request
`data.slice(start, max(start, lo - 1))` in front of what the remaining rounds
produced (their result is `r`; `none` means they ran out of fuel). -/
def sliceCont (schema : String) (d : List AttestationRequestData) (start : Nat) (lo : Int)
    (r : Option (Except String (List MultiAttestationRequest))) :
    Option (Except String (List MultiAttestationRequest)) :=
  match r with
  | none => none
  | some (.error msg) => some (.error msg)
  | some (.ok rest) =>
      some (.ok (⟨schema, jsSlice d start (max (start : Int) (lo - 1))⟩ :: rest))

/-- The outer `while (start < request.data.length)` loop of `slice` for one
request (lines 73-120), with explicit fuel: `none` means the fuel was
exhausted before the loop finished. Each round runs the binary search from
`(lo, hi) = (start, length)`, pushes `data.slice(start, max(start, lo - 1))`,
and continues from `start = lo`. -/
def sliceGo (est : Est) (schema : String) (d : List AttestationRequestData) (gasLimit : Nat) :
    Nat → Nat → Option (Except String (List MultiAttestationRequest))
  | 0, start => if start < d.length then none else some (.ok [])
  | fuel + 1, start =>
      if start < d.length then
        match searchGo est schema d gasLimit start (start : Int) (d.length : Int) with
        | .error msg => some (.error msg)
        | .ok lo => sliceCont schema d start lo (sliceGo est schema d gasLimit fuel lo.toNat)
      else some (.ok [])

/-- Concatenate the sub-requests of the remaining requests (`r`) after those
of the current one (`out`), propagating failures and fuel exhaustion. -/
def sliceAcc (r : Option (Except String (List MultiAttestationRequest)))
    (out : List MultiAttestationRequest) :
    Option (Except String (List MultiAttestationRequest)) :=
  match r with
  | none => none
  | some (.error msg) => some (.error msg)
  | some (.ok out2) => some (.ok (out ++ out2))

/-- `slice` (lines 51-124) over the whole request list: slice each request in
order and concatenate, propagating estimator failures (and fuel exhaustion). -/
def slice (est : Est) (gasLimit : Nat) (fuel : Nat) :
    List MultiAttestationRequest → Option (Except String (List MultiAttestationRequest))
  | [] => some (.ok [])
  | r :: rest =>
      match sliceGo est r.schema r.data gasLimit fuel 0 with
      | none => none
      | some (.error msg) => some (.error msg)
      | some (.ok out) => sliceAcc (slice est gasLimit fuel rest) out

/-- Replace every classified estimator failure by a cost sitting exactly at
the ceiling (the block gas limit); other outcomes are unchanged. -/
def liftEst (gasLimit : Nat) (est : Est) : Est := fun s l =>
  match est s l with
  | .ok c => .ok c
  | .error msg => if classify msg then .ok gasLimit else .error msg

/-- The sub-range's estimate exists and is at most `gasLimit - 100000`. -/
def fitsUnder (est : Est) (gasLimit : Nat) (s : String) (d : List AttestationRequestData) :
    Prop :=
  match est s d with
  | .ok c => (c : Int) ≤ (gasLimit : Int) - 100000
  | .error _ => False

/-- The estimator's answer on the empty sub-range is either a cost within the
adjusted ceiling or a non-classified (hence fatal, propagated) failure. -/
def estEmptyOk (est : Est) (gasLimit : Nat) (s : String) : Bool :=
  match est s [] with
  | .ok c => decide ((c : Int) ≤ (gasLimit : Int) - 100000)
  | .error msg => !classify msg

/-- Schema ids in order of first occurrence (spec §4.1 (a), (d)). -/
def firstOccur : List String → List String
  | [] => []
  | s :: rest => s :: (firstOccur rest).filter (fun x => x != s)

/-- The grouping described by the spec's Packer contract: one request per
schema in first-occurrence order, holding the entries of exactly its records
in input order. -/
def canonical (atts : List EncodedAttestation) : List MultiAttestationRequest :=
  (firstOccur (atts.map (·.schema))).map
    (fun s => ⟨s, (atts.filter (fun a => a.schema == s)).map toEntry⟩)

/-- The remainder described by the spec's Rehasher contract: drop the first
`k` flattened entries, keep the rest grouped under their original requests,
and omit any request that is left empty. -/
def dropFlat (k : Nat) : List MultiAttestationRequest → List MultiAttestationRequest
  | [] => []
  | b :: rest =>
      if b.data.length ≤ k then dropFlat (k - b.data.length) rest
      else ⟨b.schema, b.data.drop k⟩ :: dropFlat 0 rest

/-! Sample concrete inputs used by witnesses and counterexamples. -/

/-- A sample entry. -/
def eA : AttestationRequestData := ⟨AddressZero, 0, false, HashZero, "0x01", 0⟩

/-- A second, distinct sample entry. -/
def eB : AttestationRequestData := ⟨AddressZero, 0, false, HashZero, "0x02", 0⟩

/-- A third, distinct sample entry. -/
def eC : AttestationRequestData := ⟨AddressZero, 0, false, HashZero, "0x03", 0⟩

/-- Estimator whose cost is 1000 gas per entry in the probed sub-range. -/
def est1000 : Est := fun _ l => .ok (1000 * l.length)

/-- Estimator that always answers exactly 1000 gas. -/
def estFlat : Est := fun _ _ => .ok 1000

/-- Estimator that always throws a classified failure. -/
def estBad : Est := fun _ _ => .error "exceeds gas limit"

/-- Estimator that always answers 0 gas. -/
def estZero : Est := fun _ _ => .ok 0

/-- Sample `pack` input: two schemas, interleaved, with a present, an absent
and an empty-string recipient. -/
def atts1 : List EncodedAttestation :=
  [⟨"sA", some "0xaa", "0x01"⟩, ⟨"sB", none, "0x02"⟩, ⟨"sA", some "", "0x03"⟩]

/-- Sample request collection for the rehash round-trip witness. -/
def CW : List MultiAttestationRequest := [⟨"sA", [eA]⟩, ⟨"sB", [eB, eC]⟩]

/-! Basic lemmas about the commitment chain and `verify`. -/

theorem chainLen_foldl (l : List (String × AttestationRequestData)) :
    ∀ c : Commitment, (l.foldl (fun c p => hash c p.1 p.2) c).len = c.len + l.length := by
  induction l with
  | nil => simp
  | cons p rest ih =>
      intro c
      rw [List.foldl_cons, ih]
      simp only [hash, Commitment.len, List.length_cons]
      omega

theorem chainOf_len (l : List (String × AttestationRequestData)) :
    (chainOf l).len = l.length := by
  simpa [chainOf, Commitment.len] using chainLen_foldl l .zero

theorem chainOf_append (l l' : List (String × AttestationRequestData)) :
    chainOf (l ++ l') = l'.foldl (fun c p => hash c p.1 p.2) (chainOf l) := by
  simp [chainOf, List.foldl_append]

theorem chainOf_concat (l : List (String × AttestationRequestData))
    (p : String × AttestationRequestData) :
    chainOf (l ++ [p]) = hash (chainOf l) p.1 p.2 := by
  simp [chainOf_append]

theorem foldl_hash_batch (s : String) (es : List AttestationRequestData) :
    ∀ c : Commitment,
      es.foldl (fun c e => hash c s e) c
        = (es.map (fun e => (s, e))).foldl (fun c p => hash c p.1 p.2) c := by
  induction es with
  | nil => intro c; rfl
  | cons e rest ih => intro c; simp only [List.foldl_cons, List.map_cons, ih]

theorem verify_fold_eq (bs : List MultiAttestationRequest) :
    ∀ c : Commitment,
      bs.foldl (fun c b => b.data.foldl (fun c e => hash c b.schema e) c) c
        = (flattenColl bs).foldl (fun c p => hash c p.1 p.2) c := by
  induction bs with
  | nil => intro c; rfl
  | cons b rest ih =>
      intro c
      simp only [List.foldl_cons]
      rw [ih, foldl_hash_batch]
      simp [flattenColl, List.foldl_append]

/-- C8: for any request collection `C`, folding `hash` from the genesis (zero)
commitment over every entry of every request in collection order and passing
the resulting digest to `verify` with the same collection returns `true`. -/
theorem verify_round_trip (C : List MultiAttestationRequest) :
    verify (chainOf (flattenColl C)) C = true := by
  simp [verify, verify_fold_eq, chainOf]

/-- C9: on a collection whose flattened entry sequence is empty, the running
commitment `verify` computes is genesis itself (no `hash` application occurs),
and `verify v C` returns `true` exactly when `v` is the genesis commitment. -/
theorem verify_empty (v : Commitment) (C : List MultiAttestationRequest)
    (h : flattenColl C = []) :
    (C.foldl (fun c b => b.data.foldl (fun c e => hash c b.schema e) c) Commitment.zero
        = Commitment.zero)
    ∧ (verify v C = true ↔ v = Commitment.zero) := by
  constructor
  · rw [verify_fold_eq, h]
    rfl
  · rw [verify, verify_fold_eq, h]
    simp [eq_comm]

/-- Witness for C9 at a concrete empty-entries collection and a non-genesis
target commitment. -/
theorem verify_empty_witness :
    (flattenColl [⟨"sA", []⟩] = [])
    ∧ (verify (hash Commitment.zero "sA" eA) [⟨"sA", []⟩] = true
        ↔ hash Commitment.zero "sA" eA = Commitment.zero) := by
  exact ⟨by decide, (verify_empty (hash Commitment.zero "sA" eA) [⟨"sA", []⟩] (by decide)).2⟩

/-! The Packer: `pack` computes exactly the spec's stable grouping. -/

theorem mem_firstOccur {x : String} : ∀ {l : List String}, x ∈ firstOccur l ↔ x ∈ l := by
  intro l
  induction l with
  | nil => simp [firstOccur]
  | cons s rest ih =>
      simp only [firstOccur, List.mem_cons, List.mem_filter, ih, bne_iff_ne]
      constructor
      · rintro (h | ⟨h, _⟩) <;> simp [h]
      · rintro (h | h)
        · exact Or.inl h
        · by_cases hx : x = s
          · exact Or.inl hx
          · exact Or.inr ⟨h, hx⟩

theorem nodup_firstOccur : ∀ l : List String, (firstOccur l).Nodup := by
  intro l
  induction l with
  | nil => simp [firstOccur]
  | cons s rest ih =>
      simp only [firstOccur, List.nodup_cons]
      refine ⟨fun hmem => ?_, ih.filter _⟩
      have := (List.mem_filter.mp hmem).2
      simp at this

theorem firstOccur_concat (l : List String) (s : String) :
    firstOccur (l ++ [s]) = if s ∈ l then firstOccur l else firstOccur l ++ [s] := by
  induction l with
  | nil => simp [firstOccur]
  | cons x rest ih =>
      have hcons : firstOccur ((x :: rest) ++ [s])
          = x :: (firstOccur (rest ++ [s])).filter (fun y => y != x) := rfl
      by_cases hs : s ∈ rest
      · rw [hcons, ih, if_pos hs, if_pos (by simp [hs])]
        rfl
      · by_cases hx : s = x
        · subst hx
          rw [hcons, ih, if_neg hs, if_pos (by simp)]
          rw [List.filter_append]
          simp [firstOccur]
        · rw [hcons, ih, if_neg hs, if_neg (by simp [hx, hs])]
          rw [List.filter_append]
          have hsx : [s].filter (fun y => y != x) = [s] := by simp [hx]
          rw [hsx]
          simp [firstOccur]

theorem packStep_not_mem :
    ∀ (l : List MultiAttestationRequest) (a : EncodedAttestation),
      (∀ b ∈ l, b.schema ≠ a.schema) →
      packStep l a = l ++ [⟨a.schema, [toEntry a]⟩] := by
  intro l
  induction l with
  | nil => intro a _; rfl
  | cons b rest ih =>
      intro a h
      have hb : b.schema ≠ a.schema := h b (by simp)
      simp only [packStep, if_neg hb, List.cons_append, List.cons.injEq, true_and]
      exact ih a fun b' hb' => h b' (by simp [hb'])

theorem packStep_map (ss : List String) (f : String → List AttestationRequestData)
    (a : EncodedAttestation) (hnd : ss.Nodup) (hmem : a.schema ∈ ss) :
    packStep (ss.map (fun s => ⟨s, f s⟩)) a
      = ss.map (fun s => ⟨s, if s = a.schema then f s ++ [toEntry a] else f s⟩) := by
  induction ss with
  | nil => cases hmem
  | cons s rest ih =>
      by_cases h : s = a.schema
      · have hrest : s ∉ rest := (List.nodup_cons.mp hnd).1
        have hmap : rest.map
              (fun s' => (⟨s', if s' = a.schema then f s' ++ [toEntry a] else f s'⟩ :
                MultiAttestationRequest))
            = rest.map (fun s' => (⟨s', f s'⟩ : MultiAttestationRequest)) := by
          refine List.map_congr_left fun s' hs' => ?_
          have hne : s' ≠ a.schema := by
            intro he
            rw [← h] at he
            exact hrest (he ▸ hs')
          simp [hne]
        simp only [List.map_cons, packStep]
        rw [if_pos h, if_pos h, hmap]
      · have hmem' : a.schema ∈ rest := by
          rcases List.mem_cons.mp hmem with h' | h'
          · exact absurd h'.symm h
          · exact h'
        simp only [List.map_cons, packStep]
        rw [if_neg h, if_neg h, ih (List.nodup_cons.mp hnd).2 hmem']

theorem filter_schema_nil (xs : List EncodedAttestation) (s : String)
    (h : s ∉ xs.map (·.schema)) :
    xs.filter (fun x => x.schema == s) = [] := by
  induction xs with
  | nil => rfl
  | cons x rest ih =>
      have hx : x.schema ≠ s := by
        intro he; exact h (by simp [← he])
      have hrest : s ∉ rest.map (·.schema) := by
        intro hm
        exact h (by simp only [List.map_cons, List.mem_cons]; exact Or.inr hm)
      simp only [List.filter_cons]
      rw [if_neg (by simp [hx])]
      exact ih hrest

theorem pack_concat (xs : List EncodedAttestation) (a : EncodedAttestation) :
    pack (xs ++ [a]) = packStep (pack xs) a := by
  simp [pack, List.foldl_append]

theorem pack_eq_canonical : ∀ atts : List EncodedAttestation, pack atts = canonical atts := by
  intro atts
  induction atts using List.reverseRecOn with
  | nil => rfl
  | append_singleton xs a ih =>
      rw [pack_concat, ih]
      by_cases hmem : a.schema ∈ xs.map (·.schema)
      · unfold canonical
        rw [show (xs ++ [a]).map (·.schema) = xs.map (·.schema) ++ [a.schema] by simp,
          firstOccur_concat, if_pos hmem,
          packStep_map _ _ a (nodup_firstOccur _) (mem_firstOccur.mpr hmem)]
        refine List.map_congr_left fun s hs => ?_
        by_cases h : s = a.schema
        · subst h
          simp [List.filter_append]
        · have : (a.schema == s) = false := by simp [Ne.symm h]
          simp [List.filter_append, h, this]
      · unfold canonical
        rw [show (xs ++ [a]).map (·.schema) = xs.map (·.schema) ++ [a.schema] by simp,
          firstOccur_concat, if_neg hmem,
          packStep_not_mem _ a (by
            intro b hb
            rcases List.mem_map.mp hb with ⟨s, hs, rfl⟩
            intro he
            have he' : s = a.schema := he
            exact hmem (mem_firstOccur.mp (he' ▸ hs)))]
        rw [List.map_append]
        congr 1
        · refine List.map_congr_left fun s hs => ?_
          have hsx : s ≠ a.schema := by
            intro he; exact hmem (mem_firstOccur.mp (he ▸ hs))
          have : (a.schema == s) = false := by simp [Ne.symm hsx]
          simp [List.filter_append, this]
        · simp [List.filter_append, filter_schema_nil xs a.schema hmem]

theorem perm_cons_filter (a : String) :
    ∀ l : List String, a ∈ l → l.Nodup →
      l.Perm (a :: l.filter (fun x => x != a)) := by
  intro l
  induction l with
  | nil => intro h; cases h
  | cons x t ih =>
      intro hmem hnd
      by_cases hx : x = a
      · subst hx
        have hnt : x ∉ t := (List.nodup_cons.mp hnd).1
        have : t.filter (fun y => y != x) = t :=
          List.filter_eq_self.mpr fun y hy => by
            simp only [bne_iff_ne, ne_eq, decide_eq_true_eq]
            intro he; exact hnt (he ▸ hy)
        simp [this]
      · have hat : a ∈ t := by
          rcases List.mem_cons.mp hmem with h | h
          · exact absurd h.symm hx
          · exact h
        have hperm := ih hat (List.nodup_cons.mp hnd).2
        have hxa : (x != a) = true := by simp [hx]
        have h1 : (x :: t).Perm (x :: a :: t.filter (fun y => y != a)) := hperm.cons x
        have h2 : (x :: a :: t.filter (fun y => y != a)).Perm
            (a :: x :: t.filter (fun y => y != a)) := List.Perm.swap a x _
        have h3 : a :: x :: t.filter (fun y => y != a)
            = a :: (x :: t).filter (fun y => y != a) := by
          simp [List.filter_cons, hxa]
        exact h3 ▸ (h1.trans h2)

theorem entriesOf_map_perm (f : String → MultiAttestationRequest)
    {ss ss' : List String} (h : ss.Perm ss') :
    (entriesOf (ss.map f)).Perm (entriesOf (ss'.map f)) := by
  induction h with
  | nil => exact List.Perm.refl _
  | cons x _ ih => simpa [entriesOf] using ih.append_left (f x).data
  | swap x y l =>
      simp only [List.map_cons, entriesOf, ← List.append_assoc]
      exact (List.perm_append_comm.append_right _)
  | trans _ _ ih1 ih2 => exact ih1.trans ih2

theorem entriesOf_canonical_perm :
    ∀ atts : List EncodedAttestation,
      (entriesOf (canonical atts)).Perm (atts.map toEntry) := by
  intro atts
  induction atts with
  | nil => simp [canonical, firstOccur, entriesOf]
  | cons x rest ih =>
      unfold canonical at ih ⊢
      set ss := firstOccur (rest.map (·.schema)) with hss
      set g := fun s => (⟨s, (rest.filter (fun a => a.schema == s)).map toEntry⟩ :
        MultiAttestationRequest) with hg
      have hxfilter : (x :: rest).filter (fun a => a.schema == x.schema)
          = x :: rest.filter (fun a => a.schema == x.schema) := by
        simp [List.filter_cons]
      have hmapf :
          ((firstOccur ((x :: rest).map (·.schema))).map
            (fun s => (⟨s, ((x :: rest).filter (fun a => a.schema == s)).map toEntry⟩ :
              MultiAttestationRequest)))
          = (⟨x.schema, toEntry x :: (rest.filter (fun a => a.schema == x.schema)).map toEntry⟩ :
              MultiAttestationRequest)
            :: (ss.filter (fun s => s != x.schema)).map g := by
        simp only [List.map_cons, firstOccur, List.map_cons, ← hss]
        rw [hxfilter]
        simp only [List.map_cons, List.cons.injEq]
        refine ⟨by trivial, List.map_congr_left fun s hs => ?_⟩
        have hne : s ≠ x.schema := by
          have := (List.mem_filter.mp hs).2
          simpa using this
        have : (x.schema == s) = false := by simp [Ne.symm hne]
        simp [hg, List.filter_cons, this]
      rw [hmapf]
      simp only [entriesOf, List.map_cons]
      refine List.Perm.cons (toEntry x) ?_
      by_cases hmem : x.schema ∈ ss
      · have hperm1 : ss.Perm (x.schema :: ss.filter (fun s => s != x.schema)) :=
          perm_cons_filter x.schema ss hmem (nodup_firstOccur _)
        have hperm2 := entriesOf_map_perm g hperm1
        have : entriesOf ((x.schema :: ss.filter (fun s => s != x.schema)).map g)
            = (rest.filter (fun a => a.schema == x.schema)).map toEntry
              ++ entriesOf ((ss.filter (fun s => s != x.schema)).map g) := by
          simp [entriesOf, hg]
        rw [this] at hperm2
        exact (hperm2.symm.trans ih)
      · have hnil : rest.filter (fun a => a.schema == x.schema) = [] :=
          filter_schema_nil rest x.schema (fun hm => hmem (mem_firstOccur.mpr hm))
        have hfix : ss.filter (fun s => s != x.schema) = ss :=
          List.filter_eq_self.mpr fun s hs => by
            simp only [bne_iff_ne, ne_eq, decide_eq_true_eq]
            intro he; exact hmem (he ▸ hs)
        rw [hnil, hfix]
        simpa using ih

theorem pack_data_char (atts : List EncodedAttestation) :
    ∀ b ∈ pack atts, b.data = (atts.filter (fun x => x.schema == b.schema)).map toEntry := by
  intro b hb
  rw [pack_eq_canonical] at hb
  rcases List.mem_map.mp hb with ⟨s, _, rfl⟩
  rfl

/-- C5: `pack` is exactly the spec's stable grouping: its output is the
canonical grouping (one request per schema, in first-occurrence order, whose
entries are its records' entries in input order), output schemas are unique,
each request's data is the in-order image of the records with its schema, and
the flattened output entries are a permutation of the input entries (no entry
dropped or duplicated). -/
theorem pack_grouping (atts : List EncodedAttestation) :
    pack atts = canonical atts
    ∧ ((pack atts).map (·.schema)).Nodup
    ∧ (pack atts).map (·.schema) = firstOccur (atts.map (·.schema))
    ∧ (∀ b ∈ pack atts, b.data = (atts.filter (fun x => x.schema == b.schema)).map toEntry)
    ∧ (entriesOf (pack atts)).Perm (atts.map toEntry) := by
  have hc := pack_eq_canonical atts
  have hschemas : (pack atts).map (·.schema) = firstOccur (atts.map (·.schema)) := by
    rw [hc]
    unfold canonical
    rw [List.map_map]
    show List.map (fun s => s) _ = _
    simp
  refine ⟨hc, ?_, hschemas, pack_data_char atts, ?_⟩
  · rw [hschemas]; exact nodup_firstOccur _
  · rw [hc]; exact entriesOf_canonical_perm atts

/-- Witness for C5 at a concrete interleaved input. -/
theorem pack_grouping_witness :
    (⟨"sA", [toEntry ⟨"sA", some "0xaa", "0x01"⟩, toEntry ⟨"sA", some "", "0x03"⟩]⟩ :
        MultiAttestationRequest).data
      = (atts1.filter (fun x => x.schema == "sA")).map toEntry := by
  exact (pack_grouping atts1).2.2.2.1 _ (by decide)

/-- C10: `pack` substitutes the zero address for an absent or falsy (empty
string) recipient, fixes `expirationTime = 0`, `revocable = false`,
`refUID = HashZero`, `value = 0` on every entry it outputs, and no output
entry carries an empty recipient. -/
theorem pack_defaults :
    (∀ a : EncodedAttestation, (a.recipient = none ∨ a.recipient = some "") →
      (toEntry a).recipient = AddressZero)
    ∧ (∀ atts : List EncodedAttestation, ∀ b ∈ pack atts, ∀ e ∈ b.data,
        e.expirationTime = 0 ∧ e.revocable = false ∧ e.refUID = HashZero ∧ e.value = 0
          ∧ e.recipient ≠ "") := by
  constructor
  · intro a h
    rcases h with h | h <;> simp [toEntry, h]
  · intro atts b hb e he
    have hdata := pack_data_char atts b hb
    rw [hdata] at he
    rcases List.mem_map.mp he with ⟨a, _, rfl⟩
    refine ⟨rfl, rfl, rfl, rfl, ?_⟩
    rcases ha : a.recipient with _ | s
    · simp [toEntry, ha, AddressZero]
    · by_cases hs : s = ""
      · simp [toEntry, ha, hs, AddressZero]
      · simp [toEntry, ha, hs]

/-- Witness for C10 at a concrete input with an empty-string recipient. -/
theorem pack_defaults_witness :
    (toEntry ⟨"sB", none, "0x02"⟩).recipient = AddressZero
    ∧ ((toEntry ⟨"sA", some "", "0x03"⟩).expirationTime = 0
        ∧ (toEntry ⟨"sA", some "", "0x03"⟩).revocable = false
        ∧ (toEntry ⟨"sA", some "", "0x03"⟩).refUID = HashZero
        ∧ (toEntry ⟨"sA", some "", "0x03"⟩).value = 0
        ∧ (toEntry ⟨"sA", some "", "0x03"⟩).recipient ≠ "") := by
  refine ⟨pack_defaults.1 _ (Or.inl rfl), pack_defaults.2 atts1 ⟨"sA",
    [toEntry ⟨"sA", some "0xaa", "0x01"⟩, toEntry ⟨"sA", some "", "0x03"⟩]⟩ (by decide)
    (toEntry ⟨"sA", some "", "0x03"⟩) (by decide)⟩

/-! The Rehasher: characterisation of `rehash` against the spec's remainder. -/

theorem take_append_len {α : Type} (l₁ l₂ : List α) (i : Nat) :
    (l₁ ++ l₂).take (l₁.length + i) = l₁ ++ l₂.take i := by
  induction l₁ with
  | nil => simp
  | cons x t ih =>
      rw [show (x :: t).length + i = (t.length + i) + 1 by simp; omega]
      simp only [List.cons_append, List.take_succ_cons, ih]

theorem chainOf_take_len (fl : List (String × AttestationRequestData)) (k : Nat)
    (hk : k ≤ fl.length) : (chainOf (fl.take k)).len = k := by
  rw [chainOf_len, List.length_take]
  omega

theorem goBatch_spec (k : Nat) :
    ∀ (es : List AttestationRequestData) (pre suf : List (String × AttestationRequestData))
      (s : String),
      k ≤ (pre ++ es.map (fun e => (s, e)) ++ suf).length →
      goBatch (chainOf ((pre ++ es.map (fun e => (s, e)) ++ suf).take k)) s
          (chainOf pre) (decide (k ≤ pre.length)) es
        = (chainOf (pre ++ es.map (fun e => (s, e))),
           decide (k ≤ pre.length + es.length),
           es.drop (k - pre.length)) := by
  intro es
  induction es with
  | nil =>
      intro pre suf s hkN
      simp [goBatch]
  | cons e rest ih =>
      intro pre suf s hkN
      have hc' : hash (chainOf pre) s e = chainOf (pre ++ [(s, e)]) :=
        (chainOf_concat pre (s, e)).symm
      have hrec := ih (pre ++ [(s, e)]) suf s (by simp at hkN ⊢; omega)
      have hL : (pre ++ [(s, e)]) ++ rest.map (fun e => (s, e)) ++ suf
          = pre ++ (e :: rest).map (fun e => (s, e)) ++ suf := by simp
      have hL2 : (pre ++ [(s, e)]) ++ rest.map (fun e => (s, e))
          = pre ++ (e :: rest).map (fun e => (s, e)) := by simp
      rw [hL, hL2] at hrec
      by_cases hk : pre.length + 1 = k
      · -- the current entry is exactly the k-th one: the commitment matches here
        have htake : (pre ++ (e :: rest).map (fun e => (s, e)) ++ suf).take k
            = pre ++ [(s, e)] := by
          have h1 : pre ++ (e :: rest).map (fun e => (s, e)) ++ suf
              = (pre ++ [(s, e)]) ++ (rest.map (fun e => (s, e)) ++ suf) := by simp
          rw [h1, show k = (pre ++ [(s, e)]).length + 0 by simp; omega, take_append_len]
          simp
        have hmatch : hash (chainOf pre) s e
            = chainOf ((pre ++ (e :: rest).map (fun e => (s, e)) ++ suf).take k) := by
          rw [htake, hc']
        simp only [goBatch]
        rw [if_pos hmatch]
        rw [show (true : Bool) = decide (k ≤ (pre ++ [(s, e)]).length) from by simp; omega]
        rw [hc', hrec]
        have hB : (decide (k ≤ (pre ++ [(s, e)]).length + rest.length) : Bool)
            = decide (k ≤ pre.length + (e :: rest).length) :=
          decide_eq_decide.mpr (by simp; omega)
        have hC : rest.drop (k - (pre ++ [(s, e)]).length)
            = (e :: rest).drop (k - pre.length) := by
          rw [show k - (pre ++ [(s, e)]).length = 0 by simp; omega,
            show k - pre.length = 1 by omega]
          simp
        rw [hB, hC]
      · -- no match at the current entry
        have hne : hash (chainOf pre) s e
            ≠ chainOf ((pre ++ (e :: rest).map (fun e => (s, e)) ++ suf).take k) := by
          intro he
          have hlen := congrArg Commitment.len he
          rw [hc', chainOf_len, chainOf_take_len _ _ hkN, List.length_append] at hlen
          simp at hlen
          omega
        simp only [goBatch]
        rw [if_neg hne]
        by_cases hfound : k ≤ pre.length
        · rw [if_pos (by simpa using hfound)]
          rw [show (decide (k ≤ pre.length) : Bool)
              = decide (k ≤ (pre ++ [(s, e)]).length) from decide_eq_decide.mpr (by simp; omega)]
          rw [hc', hrec]
          have hB : (decide (k ≤ (pre ++ [(s, e)]).length + rest.length) : Bool)
              = decide (k ≤ pre.length + (e :: rest).length) :=
            decide_eq_decide.mpr (by simp; omega)
          have hC : e :: rest.drop (k - (pre ++ [(s, e)]).length)
              = (e :: rest).drop (k - pre.length) := by
            rw [show k - (pre ++ [(s, e)]).length = 0 by simp; omega,
              show k - pre.length = 0 by omega]
            simp
          rw [hB]
          exact congrArg _ (congrArg _ hC)
        · rw [if_neg (by simpa using hfound)]
          rw [show (decide (k ≤ pre.length) : Bool)
              = decide (k ≤ (pre ++ [(s, e)]).length) from decide_eq_decide.mpr (by simp; omega)]
          rw [hc', hrec]
          have hB : (decide (k ≤ (pre ++ [(s, e)]).length + rest.length) : Bool)
              = decide (k ≤ pre.length + (e :: rest).length) :=
            decide_eq_decide.mpr (by simp; omega)
          have hC : rest.drop (k - (pre ++ [(s, e)]).length)
              = (e :: rest).drop (k - pre.length) := by
            rw [show k - pre.length = (k - (pre ++ [(s, e)]).length) + 1 from by simp; omega]
            simp
          rw [hB, hC]

theorem rehashGo_spec (k : Nat) :
    ∀ (bs : List MultiAttestationRequest) (pre : List (String × AttestationRequestData)),
      k ≤ (pre ++ flattenColl bs).length →
      rehashGo (chainOf ((pre ++ flattenColl bs).take k)) bs (chainOf pre)
          (decide (k ≤ pre.length))
        = (chainOf (pre ++ flattenColl bs),
           decide (k ≤ (pre ++ flattenColl bs).length),
           dropFlat (k - pre.length) bs) := by
  intro bs
  induction bs with
  | nil =>
      intro pre hkN
      simp only [flattenColl, List.append_nil] at hkN ⊢
      simp [rehashGo, dropFlat, decide_eq_decide.mpr (Iff.intro (fun h => hkN) (fun _ => hkN))]
  | cons b rest ih =>
      intro pre hkN
      have hflat : flattenColl (b :: rest)
          = b.data.map (fun e => (b.schema, e)) ++ flattenColl rest := rfl
      have hL : pre ++ flattenColl (b :: rest)
          = (pre ++ b.data.map (fun e => (b.schema, e))) ++ flattenColl rest := by
        rw [hflat, List.append_assoc]
      have hgo := goBatch_spec k b.data pre (flattenColl rest) b.schema
        (by rw [hL] at hkN; exact hkN)
      rw [← hL] at hgo
      have hrec := ih (pre ++ b.data.map (fun e => (b.schema, e)))
        (by rw [← hL]; exact hkN)
      rw [← hL] at hrec
      simp only [rehashGo]
      rw [hgo]
      have hfd : (decide (k ≤ pre.length + b.data.length) : Bool)
          = decide (k ≤ (pre ++ b.data.map (fun e => (b.schema, e))).length) :=
        decide_eq_decide.mpr (by simp)
      rw [hfd, hrec]
      have hlen3 : (pre ++ b.data.map (fun e => (b.schema, e))).length
          = pre.length + b.data.length := by simp
      by_cases hcase : b.data.length ≤ k - pre.length
      · have hdrop : b.data.drop (k - pre.length) = [] :=
          List.drop_eq_nil_of_le (by omega)
        have hfd2 : (decide (k ≤ (pre ++ b.data.map (fun e => (b.schema, e))).length) : Bool)
            = decide (k ≤ pre.length + b.data.length) := by rw [hlen3]
        rw [hdrop]
        have hdf : dropFlat (k - pre.length) (b :: rest)
            = dropFlat (k - pre.length - b.data.length) rest := by
          rw [dropFlat, if_pos hcase]
        rw [hdf, show k - (pre ++ b.data.map (fun e => (b.schema, e))).length
            = k - pre.length - b.data.length by rw [hlen3]; omega]
        simp
      · have hne : b.data.drop (k - pre.length) ≠ [] := by
          intro h0
          have := congrArg List.length h0
          rw [List.length_drop] at this
          simp at this
          omega
        have hdf : dropFlat (k - pre.length) (b :: rest)
            = ⟨b.schema, b.data.drop (k - pre.length)⟩ :: dropFlat 0 rest := by
          rw [dropFlat, if_neg hcase]
        have hfound : (decide (k ≤ pre.length + b.data.length) : Bool) = true := by
          simp only [decide_eq_true_eq]
          omega
        have hz : k - (pre ++ b.data.map (fun e => (b.schema, e))).length = 0 := by
          rw [hlen3]; omega
        rw [hdf, hz]
        have hiE : (b.data.drop (k - pre.length)).isEmpty = false := by
          cases hdl : b.data.drop (k - pre.length) with
          | nil => exact absurd hdl hne
          | cons x xs => rfl
        have hfound2 : (decide (k ≤ (pre ++ b.data.map (fun e => (b.schema, e))).length) : Bool)
            = true := by rw [← hfd]; exact hfound
        simp [hfound2, hiE]
        rw [if_pos (show k ≤ pre.length + b.data.length from by omega)]
        simp

theorem goBatch_nomatch (target : Commitment) (s : String) :
    ∀ (es : List AttestationRequestData) (pre : List (String × AttestationRequestData)),
      (∀ i : Nat, i < es.length →
        chainOf (pre ++ (es.take (i + 1)).map (fun e => (s, e))) ≠ target) →
      goBatch target s (chainOf pre) false es
        = (chainOf (pre ++ es.map (fun e => (s, e))), false, []) := by
  intro es
  induction es with
  | nil => intro pre _; simp [goBatch]
  | cons e rest ih =>
      intro pre hnm
      have hc' : hash (chainOf pre) s e = chainOf (pre ++ [(s, e)]) :=
        (chainOf_concat pre (s, e)).symm
      have hne : hash (chainOf pre) s e ≠ target := by
        have h0 := hnm 0 (by simp)
        simpa [hc'] using h0
      simp only [goBatch]
      rw [if_neg hne, if_neg (by simp), hc']
      have hrec := ih (pre ++ [(s, e)]) (by
        intro i hi
        have := hnm (i + 1) (by simp; omega)
        simpa [List.append_assoc] using this)
      rw [hrec]
      simp

theorem rehashGo_nomatch (target : Commitment)
    (fl : List (String × AttestationRequestData))
    (hnm : ∀ j : Nat, 1 ≤ j → j ≤ fl.length → chainOf (fl.take j) ≠ target) :
    ∀ (bs : List MultiAttestationRequest) (pre : List (String × AttestationRequestData)),
      pre ++ flattenColl bs = fl →
      rehashGo target bs (chainOf pre) false = (chainOf fl, false, []) := by
  intro bs
  induction bs with
  | nil =>
      intro pre hpre
      simp only [flattenColl, List.append_nil] at hpre
      simp [rehashGo, hpre]
  | cons b rest ih =>
      intro pre hpre
      have hflat : flattenColl (b :: rest)
          = b.data.map (fun e => (b.schema, e)) ++ flattenColl rest := rfl
      have hgo := goBatch_nomatch target b.schema b.data pre (by
        intro i hi
        have hj : pre.length + (i + 1) ≤ fl.length := by
          rw [← hpre, hflat]
          simp
          omega
        have htk : fl.take (pre.length + (i + 1))
            = pre ++ (b.data.take (i + 1)).map (fun e => (b.schema, e)) := by
          rw [← hpre, hflat, take_append_len]
          congr 1
          rw [List.take_append_of_le_length (by simp; omega), List.map_take]
        have := hnm (pre.length + (i + 1)) (by omega) hj
        rw [htk] at this
        exact this)
      simp only [rehashGo]
      rw [hgo]
      have hrec := ih (pre ++ b.data.map (fun e => (b.schema, e))) (by
        rw [List.append_assoc, ← hflat, hpre])
      rw [hrec]
      simp

theorem rehash_nomatch_char (target : Commitment) (C : List MultiAttestationRequest)
    (hnm : ∀ j : Nat, 1 ≤ j → j ≤ (flattenColl C).length →
      chainOf ((flattenColl C).take j) ≠ target) :
    rehash target C
      = if target = Commitment.zero then .ok C
        else .error "verification hash mismatch" := by
  have hr : rehashGo target C Commitment.zero false
      = (chainOf (flattenColl C), false, []) :=
    rehashGo_nomatch target (flattenColl C) hnm C [] rfl
  rw [rehash, hr]
  simp

theorem chainOf_take_ne_zero (fl : List (String × AttestationRequestData)) (j : Nat)
    (h1 : 1 ≤ j) (hN : j ≤ fl.length) : chainOf (fl.take j) ≠ Commitment.zero := by
  intro he
  have := congrArg Commitment.len he
  rw [chainOf_take_len _ _ hN] at this
  simp [Commitment.len] at this
  omega

theorem rehash_genesis (C : List MultiAttestationRequest) :
    rehash Commitment.zero C = .ok C := by
  rw [rehash_nomatch_char Commitment.zero C
    (fun j h1 hN => chainOf_take_ne_zero _ j h1 hN), if_pos rfl]

/-- C3: the rehash round-trip, as it actually holds on the code.  For a prefix
length `1 ≤ k ≤ N` (entry granularity, possibly splitting a request), feeding
the fold of `hash` over the first `k` flattened entries back into `rehash`
returns exactly the remaining entries grouped under their original requests
with emptied requests omitted; for `k = 0` (genesis target) `rehash` instead
returns the input collection *unchanged*, including any empty requests. -/
theorem rehash_round_trip :
    (∀ C : List MultiAttestationRequest, rehash Commitment.zero C = .ok C)
    ∧ (∀ (C : List MultiAttestationRequest) (k : Nat), 1 ≤ k →
        k ≤ (flattenColl C).length →
        rehash (chainOf ((flattenColl C).take k)) C = .ok (dropFlat k C)) := by
  constructor
  · exact rehash_genesis
  · intro C k hk1 hkN
    have hr := rehashGo_spec k C [] (by simpa using hkN)
    simp only [List.nil_append, List.length_nil, Nat.sub_zero] at hr
    rw [show (decide (k ≤ 0) : Bool) = false from by simp; omega] at hr
    rw [show chainOf ([] : List (String × AttestationRequestData)) = Commitment.zero
      from rfl] at hr
    simp only [rehash]
    rw [hr]
    simp [hkN]

/-- Witness for C3 at a two-request collection split in the middle of the
second request (`k = 2` of 3 entries). -/
theorem rehash_round_trip_witness :
    rehash Commitment.zero CW = .ok CW
    ∧ rehash (chainOf ((flattenColl CW).take 2)) CW = .ok [⟨"sB", [eC]⟩] := by
  constructor
  · exact rehash_round_trip.1 CW
  · have h := rehash_round_trip.2 CW 2 (by omega) (by decide)
    rw [h]
    rfl

/-- Counterexample to C3 as literally stated: for prefix length `k = 0` the
target commitment is genesis, and on a collection containing an empty request
`rehash` returns the input unchanged — the empty request is *not* omitted,
although the claim's description of the output ("entries after position k
grouped back, empty requests omitted") demands `[]` here. -/
theorem rehash_k0_cex :
    rehash (chainOf ((flattenColl [(⟨"sA", []⟩ : MultiAttestationRequest)]).take 0))
        [⟨"sA", []⟩] = .ok [⟨"sA", []⟩]
    ∧ dropFlat 0 [(⟨"sA", []⟩ : MultiAttestationRequest)] = []
    ∧ (Except.ok [(⟨"sA", []⟩ : MultiAttestationRequest)]
        : Except String (List MultiAttestationRequest))
      ≠ .ok ([] : List MultiAttestationRequest) := by
  refine ⟨rfl, rfl, fun h => ?_⟩
  simp at h

/-- C6: when `rehash` reaches the end of the collection without the running
commitment ever matching the target, it returns the input collection unchanged
if the target is the genesis (zero) commitment, and fails with the
integrity-mismatch error (`verification hash mismatch`) otherwise. -/
theorem rehash_unmatched (target : Commitment) (C : List MultiAttestationRequest)
    (hnm : ∀ j : Nat, 1 ≤ j → j ≤ (flattenColl C).length →
      chainOf ((flattenColl C).take j) ≠ target) :
    rehash target C
      = if target = Commitment.zero then .ok C
        else .error "verification hash mismatch" :=
  rehash_nomatch_char target C hnm

/-- Witness for C6: a non-genesis commitment matching no prefix of a concrete
one-entry collection makes `rehash` fail with the mismatch error. -/
theorem rehash_unmatched_witness :
    rehash (hash Commitment.zero "sX" eA) [⟨"sB", [eB]⟩]
      = .error "verification hash mismatch" := by
  have h := rehash_unmatched (hash Commitment.zero "sX" eA) [⟨"sB", [eB]⟩]
    (by
      intro j h1 h2
      have hl : (flattenColl [(⟨"sB", [eB]⟩ : MultiAttestationRequest)]).length = 1 := rfl
      rw [hl] at h2
      have hj : j = 1 := by omega
      subst hj
      decide)
  rw [h]
  rfl

/-! The Slicer: binary-search lemmas. -/

theorem searchGo_step (est : Est) (s : String) (d : List AttestationRequestData)
    (gl start : Nat) (lo hi : Int) (h : lo ≤ hi) :
    searchGo est s d gl start lo hi
      = match est s (jsSlice d start ((lo + hi) / 2)) with
        | .ok c =>
            if (c : Int) > (gl : Int) - 100000 then
              searchGo est s d gl start lo ((lo + hi) / 2 - 1)
            else searchGo est s d gl start ((lo + hi) / 2 + 1) hi
        | .error msg =>
            if classify msg then searchGo est s d gl start lo ((lo + hi) / 2 - 1)
            else .error msg := by
  rw [searchGo, dif_pos h]

theorem searchGo_exit (est : Est) (s : String) (d : List AttestationRequestData)
    (gl start : Nat) (lo hi : Int) (h : ¬lo ≤ hi) :
    searchGo est s d gl start lo hi = .ok lo := by
  rw [searchGo, dif_neg h]

theorem jsSlice_empty (d : List AttestationRequestData) (a : Nat) :
    jsSlice d a (a : Int) = [] := by
  rw [jsSlice]
  refine List.drop_eq_nil_of_le ?_
  simp [List.length_take]

theorem searchGo_le (est : Est) (s : String) (d : List AttestationRequestData)
    (gl start : Nat) : ∀ (lo hi : Int), ∀ r : Int,
    searchGo est s d gl start lo hi = .ok r → lo ≤ r := by
  intro lo hi
  induction lo, hi using searchGo.induct est s d gl start with
  | case1 lo hi h mid c hest hgt ih =>
      intro r hr
      have hest' : est s (jsSlice d start ((lo + hi) / 2)) = .ok c := hest
      rw [searchGo_step est s d gl start lo hi h] at hr
      simp only [hest'] at hr
      rw [if_pos (by exact_mod_cast hgt)] at hr
      exact ih r hr
  | case2 lo hi h mid c hest hle ih =>
      intro r hr
      have hest' : est s (jsSlice d start ((lo + hi) / 2)) = .ok c := hest
      rw [searchGo_step est s d gl start lo hi h] at hr
      simp only [hest'] at hr
      rw [if_neg (by exact_mod_cast hle)] at hr
      have := ih r hr
      omega
  | case3 lo hi h mid msg hest hcl ih =>
      intro r hr
      have hest' : est s (jsSlice d start ((lo + hi) / 2)) = .error msg := hest
      rw [searchGo_step est s d gl start lo hi h] at hr
      simp only [hest'] at hr
      rw [if_pos hcl] at hr
      exact ih r hr
  | case4 lo hi h mid msg hest hncl =>
      intro r hr
      have hest' : est s (jsSlice d start ((lo + hi) / 2)) = .error msg := hest
      rw [searchGo_step est s d gl start lo hi h] at hr
      simp only [hest'] at hr
      rw [if_neg hncl] at hr
      cases hr
  | case5 lo hi h =>
      intro r hr
      rw [searchGo_exit est s d gl start lo hi h] at hr
      cases hr
      omega

theorem searchGo_emit (est : Est) (s : String) (d : List AttestationRequestData)
    (gl start : Nat) : ∀ (lo hi : Int), ∀ r : Int,
    searchGo est s d gl start lo hi = .ok r →
    r = lo ∨ ∃ c : Nat, est s (jsSlice d start (r - 1)) = .ok c
      ∧ ¬((c : Int) > (gl : Int) - 100000) := by
  intro lo hi
  induction lo, hi using searchGo.induct est s d gl start with
  | case1 lo hi h mid c hest hgt ih =>
      intro r hr
      have hest' : est s (jsSlice d start ((lo + hi) / 2)) = .ok c := hest
      rw [searchGo_step est s d gl start lo hi h] at hr
      simp only [hest'] at hr
      rw [if_pos (by exact_mod_cast hgt)] at hr
      exact ih r hr
  | case2 lo hi h mid c hest hle ih =>
      intro r hr
      have hest' : est s (jsSlice d start ((lo + hi) / 2)) = .ok c := hest
      rw [searchGo_step est s d gl start lo hi h] at hr
      simp only [hest'] at hr
      rw [if_neg (by exact_mod_cast hle)] at hr
      rcases ih r hr with heq | hex
      · right
        refine ⟨c, ?_, by exact_mod_cast hle⟩
        rw [heq]
        simpa using hest'
      · exact Or.inr hex
  | case3 lo hi h mid msg hest hcl ih =>
      intro r hr
      have hest' : est s (jsSlice d start ((lo + hi) / 2)) = .error msg := hest
      rw [searchGo_step est s d gl start lo hi h] at hr
      simp only [hest'] at hr
      rw [if_pos hcl] at hr
      exact ih r hr
  | case4 lo hi h mid msg hest hncl =>
      intro r hr
      have hest' : est s (jsSlice d start ((lo + hi) / 2)) = .error msg := hest
      rw [searchGo_step est s d gl start lo hi h] at hr
      simp only [hest'] at hr
      rw [if_neg hncl] at hr
      cases hr
  | case5 lo hi h =>
      intro r hr
      rw [searchGo_exit est s d gl start lo hi h] at hr
      cases hr
      exact Or.inl rfl

theorem searchGo_ne_start (est : Est) (s : String) (d : List AttestationRequestData)
    (gl start : Nat) (hemp : estEmptyOk est gl s = true) :
    ∀ (lo hi : Int), lo = (start : Int) → (start : Int) ≤ hi →
      searchGo est s d gl start lo hi ≠ .ok (start : Int) := by
  intro lo hi
  induction lo, hi using searchGo.induct est s d gl start with
  | case1 lo hi h mid c hest hgt ih =>
      intro hlo hhi hr
      have hest' : est s (jsSlice d start ((lo + hi) / 2)) = .ok c := hest
      rw [searchGo_step est s d gl start lo hi h] at hr
      simp only [hest'] at hr
      rw [if_pos (by exact_mod_cast hgt)] at hr
      by_cases hms : (lo + hi) / 2 = (start : Int)
      · have hsl : jsSlice d start ((lo + hi) / 2) = [] := by
          rw [hms]; exact jsSlice_empty d start
        rw [hsl] at hest'
        rw [estEmptyOk, hest'] at hemp
        have hle : (c : Int) ≤ (gl : Int) - 100000 := by simpa using hemp
        have hc2 : (c : Int) > (gl : Int) - 100000 := by exact_mod_cast hgt
        omega
      · exact ih hlo (by omega) hr
  | case2 lo hi h mid c hest hle ih =>
      intro hlo hhi hr
      have hest' : est s (jsSlice d start ((lo + hi) / 2)) = .ok c := hest
      rw [searchGo_step est s d gl start lo hi h] at hr
      simp only [hest'] at hr
      rw [if_neg (by exact_mod_cast hle)] at hr
      have := searchGo_le est s d gl start _ _ _ hr
      omega
  | case3 lo hi h mid msg hest hcl ih =>
      intro hlo hhi hr
      have hest' : est s (jsSlice d start ((lo + hi) / 2)) = .error msg := hest
      rw [searchGo_step est s d gl start lo hi h] at hr
      simp only [hest'] at hr
      rw [if_pos hcl] at hr
      by_cases hms : (lo + hi) / 2 = (start : Int)
      · have hsl : jsSlice d start ((lo + hi) / 2) = [] := by
          rw [hms]; exact jsSlice_empty d start
        rw [hsl] at hest'
        rw [estEmptyOk, hest'] at hemp
        simp [hcl] at hemp
      · exact ih hlo (by omega) hr
  | case4 lo hi h mid msg hest hncl =>
      intro hlo hhi hr
      have hest' : est s (jsSlice d start ((lo + hi) / 2)) = .error msg := hest
      rw [searchGo_step est s d gl start lo hi h] at hr
      simp only [hest'] at hr
      rw [if_neg hncl] at hr
      cases hr
  | case5 lo hi h =>
      intro hlo hhi hr
      omega

theorem searchGo_lift (est : Est) (s : String) (d : List AttestationRequestData)
    (gl start : Nat) : ∀ (lo hi : Int),
    searchGo est s d gl start lo hi = searchGo (liftEst gl est) s d gl start lo hi := by
  intro lo hi
  induction lo, hi using searchGo.induct est s d gl start with
  | case1 lo hi h mid c hest hgt ih =>
      have hest' : est s (jsSlice d start ((lo + hi) / 2)) = .ok c := hest
      have hlift : liftEst gl est s (jsSlice d start ((lo + hi) / 2)) = .ok c := by
        simp [liftEst, hest']
      rw [searchGo_step est s d gl start lo hi h,
        searchGo_step (liftEst gl est) s d gl start lo hi h]
      simp only [hest', hlift]
      rw [if_pos (by exact_mod_cast hgt), if_pos (by exact_mod_cast hgt)]
      exact ih
  | case2 lo hi h mid c hest hle ih =>
      have hest' : est s (jsSlice d start ((lo + hi) / 2)) = .ok c := hest
      have hlift : liftEst gl est s (jsSlice d start ((lo + hi) / 2)) = .ok c := by
        simp [liftEst, hest']
      rw [searchGo_step est s d gl start lo hi h,
        searchGo_step (liftEst gl est) s d gl start lo hi h]
      simp only [hest', hlift]
      rw [if_neg (by exact_mod_cast hle), if_neg (by exact_mod_cast hle)]
      exact ih
  | case3 lo hi h mid msg hest hcl ih =>
      have hest' : est s (jsSlice d start ((lo + hi) / 2)) = .error msg := hest
      have hlift : liftEst gl est s (jsSlice d start ((lo + hi) / 2)) = .ok gl := by
        simp [liftEst, hest', hcl]
      rw [searchGo_step est s d gl start lo hi h,
        searchGo_step (liftEst gl est) s d gl start lo hi h]
      simp only [hest', hlift]
      rw [if_pos hcl, if_pos (show (gl : Int) > (gl : Int) - 100000 by omega)]
      exact ih
  | case4 lo hi h mid msg hest hncl =>
      have hest' : est s (jsSlice d start ((lo + hi) / 2)) = .error msg := hest
      have hlift : liftEst gl est s (jsSlice d start ((lo + hi) / 2)) = .error msg := by
        simp [liftEst, hest', hncl]
      rw [searchGo_step est s d gl start lo hi h,
        searchGo_step (liftEst gl est) s d gl start lo hi h]
      simp only [hest', hlift]
      rw [if_neg hncl, if_neg hncl]
  | case5 lo hi h =>
      rw [searchGo_exit est s d gl start lo hi h,
        searchGo_exit (liftEst gl est) s d gl start lo hi h]

theorem sliceGo_lift (est : Est) (s : String) (d : List AttestationRequestData) (gl : Nat) :
    ∀ (fuel start : Nat),
      sliceGo est s d gl fuel start = sliceGo (liftEst gl est) s d gl fuel start := by
  intro fuel
  induction fuel with
  | zero => intro start; rfl
  | succ n ih =>
      intro start
      simp only [sliceGo]
      by_cases hs : start < d.length
      · rw [if_pos hs, if_pos hs, ← searchGo_lift]
        cases hsr : searchGo est s d gl start (start : Int) (d.length : Int) with
        | error msg => rfl
        | ok lo =>
            show sliceCont s d start lo (sliceGo est s d gl n lo.toNat)
              = sliceCont s d start lo (sliceGo (liftEst gl est) s d gl n lo.toNat)
            rw [ih lo.toNat]
      · rw [if_neg hs, if_neg hs]

theorem sliceGo_bound (est : Est) (s : String) (d : List AttestationRequestData) (gl : Nat) :
    ∀ (fuel start : Nat) (out : List MultiAttestationRequest),
      sliceGo est s d gl fuel start = some (.ok out) →
      ∀ b ∈ out, b.schema = s ∧
        (b.data = [] ∨ ∃ c : Nat, est s b.data = .ok c
          ∧ ¬((c : Int) > (gl : Int) - 100000)) := by
  intro fuel
  induction fuel with
  | zero =>
      intro start out h b hb
      rw [sliceGo] at h
      by_cases hs : start < d.length
      · rw [if_pos hs] at h; cases h
      · rw [if_neg hs] at h
        have hout : out = [] := by simpa using h.symm
        subst hout
        cases hb
  | succ n ih =>
      intro start out h b hb
      rw [sliceGo] at h
      by_cases hs : start < d.length
      · rw [if_pos hs] at h
        cases hsr : searchGo est s d gl start (start : Int) (d.length : Int) with
        | error msg => rw [hsr] at h; cases h
        | ok lo =>
            rw [hsr] at h
            have h2 : sliceCont s d start lo (sliceGo est s d gl n lo.toNat)
                = some (.ok out) := h
            cases hrec : sliceGo est s d gl n lo.toNat with
            | none => rw [hrec] at h2; simp [sliceCont] at h2
            | some x =>
                rw [hrec] at h2
                cases x with
                | error msg => simp [sliceCont] at h2
                | ok rest =>
                    simp only [sliceCont] at h2
                    have hout : out
                        = ⟨s, jsSlice d start (max (start : Int) (lo - 1))⟩ :: rest := by
                      simpa using h2.symm
                    subst hout
                    rcases List.mem_cons.mp hb with hbeq | hbrest
                    · subst hbeq
                      refine ⟨rfl, ?_⟩
                      have hge := searchGo_le est s d gl start _ _ _ hsr
                      by_cases hlo : lo = (start : Int)
                      · left
                        have hmax : max (start : Int) (lo - 1) = (start : Int) := by
                          rw [hlo]
                          omega
                        show jsSlice d start (max (start : Int) (lo - 1)) = []
                        rw [hmax]
                        exact jsSlice_empty d start
                      · rcases searchGo_emit est s d gl start _ _ _ hsr
                          with heq | ⟨c, hc, hcle⟩
                        · exact absurd heq hlo
                        · right
                          have hmax : max (start : Int) (lo - 1) = lo - 1 := by omega
                          refine ⟨c, ?_, hcle⟩
                          show est s (jsSlice d start (max (start : Int) (lo - 1))) = .ok c
                          rw [hmax]
                          exact hc
                    · exact ih lo.toNat rest hrec b hbrest
      · rw [if_neg hs] at h
        have hout : out = [] := by simpa using h.symm
        subst hout
        cases hb

theorem sliceGo_term (est : Est) (s : String) (d : List AttestationRequestData)
    (gl : Nat) (hemp : estEmptyOk est gl s = true) :
    ∀ (fuel start : Nat), d.length - start < fuel →
      (sliceGo est s d gl fuel start).isSome = true := by
  intro fuel
  induction fuel with
  | zero => intro start h; omega
  | succ n ih =>
      intro start hfuel
      rw [sliceGo]
      by_cases hs : start < d.length
      · rw [if_pos hs]
        cases hsr : searchGo est s d gl start (start : Int) (d.length : Int) with
        | error msg => rfl
        | ok lo =>
            have hge := searchGo_le est s d gl start _ _ _ hsr
            have hne2 : lo ≠ (start : Int) := by
              intro heq
              rw [heq] at hsr
              exact searchGo_ne_start est s d gl start hemp (start : Int) (d.length : Int)
                rfl (by exact_mod_cast Nat.le_of_lt hs) hsr
            have hnext : d.length - lo.toNat < n := by omega
            have hson := ih lo.toNat hnext
            show (sliceCont s d start lo (sliceGo est s d gl n lo.toNat)).isSome = true
            cases hq : sliceGo est s d gl n lo.toNat with
            | none => rw [hq] at hson; simp at hson
            | some x =>
                cases x with
                | error msg => rfl
                | ok rest => rfl
      · rw [if_neg hs]
        rfl

theorem sliceGo_fatal (s : String) (d : List AttestationRequestData) (gl : Nat)
    (msg : String) (fuel start : Nat) (hcl : classify msg = false)
    (hs : start < d.length) :
    sliceGo (fun _ _ => .error msg) s d gl (fuel + 1) start = some (.error msg) := by
  rw [sliceGo, if_pos hs]
  have hsr : searchGo (fun _ _ => .error msg) s d gl start (start : Int) (d.length : Int)
      = .error msg := by
    rw [searchGo_step _ _ _ _ _ _ _ (by exact_mod_cast Nat.le_of_lt hs)]
    simp [hcl]
  rw [hsr]

theorem slice_lift_all (est : Est) (gl fuel : Nat) :
    ∀ reqs : List MultiAttestationRequest,
      slice est gl fuel reqs = slice (liftEst gl est) gl fuel reqs := by
  intro reqs
  induction reqs with
  | nil => rfl
  | cons r rest ih =>
      simp only [slice]
      rw [← sliceGo_lift]
      cases h1 : sliceGo est r.schema r.data gl fuel 0 with
      | none => rfl
      | some x =>
          cases x with
          | error m => rfl
          | ok out =>
              show sliceAcc (slice est gl fuel rest) out
                = sliceAcc (slice (liftEst gl est) gl fuel rest) out
              rw [ih]

theorem slice_bound_all (est : Est) (gl fuel : Nat) :
    ∀ (reqs out : List MultiAttestationRequest),
      slice est gl fuel reqs = some (.ok out) →
      ∀ b ∈ out, b.data = [] ∨ fitsUnder est gl b.schema b.data := by
  intro reqs
  induction reqs with
  | nil =>
      intro out h b hb
      have hout : out = [] := by simpa [slice] using h.symm
      subst hout
      cases hb
  | cons r rest ih =>
      intro out h b hb
      simp only [slice] at h
      cases h1 : sliceGo est r.schema r.data gl fuel 0 with
      | none => rw [h1] at h; cases h
      | some x =>
          rw [h1] at h
          cases x with
          | error m => cases h
          | ok out1 =>
              have h2 : sliceAcc (slice est gl fuel rest) out1 = some (.ok out) := h
              cases h3 : slice est gl fuel rest with
              | none => rw [h3] at h2; simp [sliceAcc] at h2
              | some y =>
                  rw [h3] at h2
                  cases y with
                  | error m => simp [sliceAcc] at h2
                  | ok out2 =>
                      simp only [sliceAcc] at h2
                      have hout : out = out1 ++ out2 := by simpa using h2.symm
                      subst hout
                      rcases List.mem_append.mp hb with hb1 | hb2
                      · rcases sliceGo_bound est r.schema r.data gl fuel 0 out1 h1 b hb1
                          with ⟨hbs, hd⟩
                        rcases hd with hd | ⟨c, hc, hcle⟩
                        · exact Or.inl hd
                        · right
                          rw [fitsUnder, hbs, hc]
                          omega
                      · exact ih out2 h3 b hb2

theorem slice_fatal_all (gl : Nat) (msg : String) (fuel : Nat)
    (hcl : classify msg = false) :
    ∀ bs : List MultiAttestationRequest, (∃ b ∈ bs, b.data ≠ []) →
      slice (fun _ _ => .error msg) gl (fuel + 1) bs = some (.error msg) := by
  intro bs
  induction bs with
  | nil => rintro ⟨b, hb, _⟩; cases hb
  | cons r rest ih =>
      rintro ⟨b, hb, hbne⟩
      simp only [slice]
      by_cases hr : r.data = []
      · have h0 : sliceGo (fun _ _ => .error msg) r.schema r.data gl (fuel + 1) 0
            = some (.ok []) := by
          rw [sliceGo, if_neg (by simp [hr])]
        rw [h0]
        have hbrest : b ∈ rest := by
          rcases List.mem_cons.mp hb with hb' | hb'
          · exact absurd (hb' ▸ hr) hbne
          · exact hb'
        show sliceAcc (slice (fun _ _ => .error msg) gl (fuel + 1) rest) [] = some (.error msg)
        rw [ih ⟨b, hbrest, hbne⟩]
        rfl
      · have hlen : 0 < r.data.length := List.length_pos.mpr hr
        rw [sliceGo_fatal r.schema r.data gl msg fuel 0 hcl hlen]

/-- C1, evaluated at a failing input (code bug): with two entries costing 1000
gas each, a gas limit of 101000 (adjusted ceiling 1000) fits exactly one entry
per sub-request, yet `slice` returns a single sub-request `[eA]` — the second
entry is dropped, because after the binary search the code emits
`data.slice(start, lo - 1)` but restarts from `start = lo`, skipping index
`lo - 1`.  Concatenating the output entries does not reconstruct the input. -/
theorem slice_loses_entries :
    slice est1000 101000 3 [⟨"s0", [eA, eB]⟩] = some (.ok [⟨"s0", [eA]⟩])
    ∧ entriesOf [(⟨"s0", [eA]⟩ : MultiAttestationRequest)]
      ≠ entriesOf [(⟨"s0", [eA, eB]⟩ : MultiAttestationRequest)] := by
  constructor
  · simp [slice, sliceGo, sliceCont, sliceAcc, searchGo, est1000, jsSlice, eA, eB]
  · decide

/-- C2 (amended): one request's slicing loop terminates — with fuel
`entry count + 1` it completes (each emitted round advances `start`) —
provided the estimator answers the empty sub-range with either a cost within
the adjusted ceiling or a non-classified (fatal, hence propagated) failure. -/
theorem slice_terminates (est : Est) (gl : Nat) (b : MultiAttestationRequest)
    (hemp : estEmptyOk est gl b.schema = true) :
    (sliceGo est b.schema b.data gl (b.data.length + 1) 0).isSome = true :=
  sliceGo_term est b.schema b.data gl hemp (b.data.length + 1) 0 (by omega)

/-- Witness for C2 at a concrete estimator and one-entry request. -/
theorem slice_terminates_witness :
    (sliceGo estZero "s0" [eA] 101000 2 0).isSome = true :=
  slice_terminates estZero 101000 ⟨"s0", [eA]⟩ (by decide)

theorem sliceGo_estBad_none : ∀ fuel : Nat, sliceGo estBad "s0" [eA] 101000 fuel 0 = none := by
  intro fuel
  induction fuel with
  | zero => rfl
  | succ n ih =>
      simp [sliceGo, searchGo, estBad, classify, strIncludes, hasSub, isPre, jsSlice,
        sliceCont, ih]

/-- Counterexample to C2 as stated: an estimator that classifies every
sub-range — the empty one included — as `exceeds gas limit` makes the slicing
loop emit a zero-width slice without ever advancing `start`: no amount of
fuel finishes, i.e. the JS loop runs forever. -/
theorem slice_nonterm_cex :
    ¬∃ fuel : Nat, (sliceGo estBad "s0" [eA] 101000 fuel 0).isSome = true := by
  rintro ⟨fuel, hf⟩
  rw [sliceGo_estBad_none fuel] at hf
  simp at hf

/-- Counterexample to C4 as stated: a sub-range whose estimate is *exactly*
`gasLimit - 100000` is accepted (the code narrows only on `estimate.gt`), so
an emitted sub-request can have cost equal — not strictly below — the
adjusted ceiling. -/
theorem slice_bound_cex :
    slice estFlat 101000 2 [⟨"s0", [eA]⟩] = some (.ok [⟨"s0", [eA]⟩])
    ∧ estFlat "s0" [eA] = .ok 1000
    ∧ ¬((1000 : Int) < (101000 : Int) - 100000) := by
  refine ⟨?_, rfl, by omega⟩
  simp [slice, sliceGo, sliceCont, sliceAcc, searchGo, estFlat, jsSlice]

/-- C4 (amended): every sub-request emitted by a successful `slice` call is
either empty or was probed by the same estimator with a cost of *at most*
(not strictly below) `gasLimit - 100000`. -/
theorem slice_bound (est : Est) (gl fuel : Nat)
    (reqs out : List MultiAttestationRequest)
    (h : slice est gl fuel reqs = some (.ok out)) :
    ∀ b ∈ out, b.data = [] ∨ fitsUnder est gl b.schema b.data :=
  slice_bound_all est gl fuel reqs out h

/-- Witness for C4 at a concrete run whose emitted sub-request sits exactly at
the adjusted ceiling. -/
theorem slice_bound_witness :
    (⟨"s0", [eA]⟩ : MultiAttestationRequest).data = []
      ∨ fitsUnder estFlat 101000 (⟨"s0", [eA]⟩ : MultiAttestationRequest).schema
          (⟨"s0", [eA]⟩ : MultiAttestationRequest).data := by
  refine slice_bound estFlat 101000 2 [⟨"s0", [eA]⟩] [⟨"s0", [eA]⟩] ?_ _ (by simp)
  simp [slice, sliceGo, sliceCont, sliceAcc, searchGo, estFlat, jsSlice]

/-- C7: during the binary search an estimator failure whose message mentions
`exceeds gas limit` or `cannot estimate gas` is handled exactly like a cost
sitting at the ceiling (the block gas limit): replacing every such failure by
the cost `gasLimit` leaves `slice`'s result unchanged (the failure only
narrows the search and never aborts).  Any other estimator failure aborts the
whole `slice` call, propagating the original message with no partial
result. -/
theorem slice_error_handling :
    (∀ (est : Est) (gl fuel : Nat) (reqs : List MultiAttestationRequest),
      slice est gl fuel reqs = slice (liftEst gl est) gl fuel reqs)
    ∧ (∀ (gl : Nat) (msg : String) (fuel : Nat) (bs : List MultiAttestationRequest),
      classify msg = false → (∃ b ∈ bs, b.data ≠ []) →
      slice (fun _ _ => .error msg) gl (fuel + 1) bs = some (.error msg)) :=
  ⟨fun est gl fuel reqs => slice_lift_all est gl fuel reqs,
   fun gl msg fuel bs hcl hex => slice_fatal_all gl msg fuel hcl bs hex⟩

/-- Witness for C7: the classified-failure estimator slices like the
at-the-ceiling one, and a non-classified failure aborts with its message. -/
theorem slice_error_handling_witness :
    slice estBad 101000 2 [⟨"s0", [eA]⟩]
      = slice (liftEst 101000 estBad) 101000 2 [⟨"s0", [eA]⟩]
    ∧ slice (fun _ _ => .error "boom") 101000 1 [⟨"s0", [eA]⟩] = some (.error "boom") := by
  constructor
  · exact slice_error_handling.1 estBad 101000 2 [⟨"s0", [eA]⟩]
  · exact slice_error_handling.2 101000 "boom" 0 [⟨"s0", [eA]⟩] (by decide)
      ⟨⟨"s0", [eA]⟩, by simp, by simp⟩

end Atstdd
